import Mathlib

/-!
# Verification of the `ramdisk` contract

Shallow embedding of `src/ramdisk.cpp`, an Antelope smart contract that
stores sparse files (maps from 64-bit node ids to byte blobs) under
claimed names.  Antelope `name` values are modelled as the character
sequences they encode (up to 12 significant characters for the names the
contract accepts); the `files` and `nodes` multi-index tables, both
scoped by filename, are modelled as a per-filename record holding the
optional singleton `file` row and the primary-key-ordered list of `node`
rows.  The external substrate (authentication, the system contract's
name-bid table, account existence) is passed in as read-only parameters;
`require_auth` is modelled at the action-step level: a step can only be
taken by an authenticated actor, and the empty name can never
authenticate (the source relies on "should be impossible to create an
account with the empty name").
-/

namespace Ramdisk

/-- An Antelope account / file name, as its sequence of characters.
The empty list models the empty name `""_n` (value 0). -/
abbrev Name := List Char

/-- The empty name `""_n`, used by `setimmutable` as the no-owner sentinel. -/
def emptyName : Name := []

/-- `eosio::name::suffix()`: the characters after the last dot separator
(the whole name when no dot is present). -/
def suffix : Name → Name
  | [] => []
  | c :: rest => if '.' ∈ c :: rest then suffix rest else c :: rest

/-- Row of the `nodes` table: a node id (uint64) and its byte data. -/
structure node where
  id : Nat
  data : List Nat
deriving DecidableEq

/-- Row of the system contract's `namebids` table. -/
structure name_bid where
  newname : Name
  high_bidder : Name
  high_bid : Int
  last_bid_time : Nat
deriving DecidableEq

/-- Read-only view of the system contract's name-bid table, keyed by name. -/
abbrev Registry := Name → Option name_bid

/-- The two tables scoped by one filename: the singleton `files` row
(`none` when the file does not exist, `some owner` otherwise) and the
`nodes` rows in increasing primary-key order. -/
structure Vol where
  files : Option Name
  nodes : List node

/-- Whole contract storage: the scoped tables of every filename. -/
def State := Name → Vol

/-- Initial storage: no files, no nodes anywhere. -/
def init : State := fun _ => ⟨none, []⟩

/-- Replace the tables scoped by `fn`. -/
def setVol (s : State) (fn : Name) (v : Vol) : State :=
  fun x => if x = fn then v else s x

/-- Abort reasons, one per `check` message in the source. -/
inductive Err where
  | invalidFilename      -- "Invalid filename."
  | fileExists           -- "File exists."
  | suffixAuctionOpen    -- "Suffix auction open."
  | suffixBidNotOwned    -- "Suffix winning bid not owned."
  | suffixAccountNotOwned -- "Suffix account not owned."
  | fileNotFound         -- "File does not exist."
  | notFileOwner         -- "Not file owner."
deriving DecidableEq

/-! ## Node-table algorithms

The `nodes` multi-index iterates rows in increasing `id` order;
`find(k)` positions an iterator on the row with id `k` (or `end()` when
absent) and `erase` returns the iterator to the next row.  The loops of
the source are translated as structural recursion over the ordered row
list, fusing `find`'s scan with the erase loop that starts at its
result. -/

/-- 2^64, the modulus of the uint64 arithmetic in `delnodec`. -/
def U64MOD : Nat := 18446744073709551616

/-- `setnode`'s table update: modify the row in place when the id is
found, otherwise emplace a fresh row at its ordered position. -/
def setnodeT (i : Nat) (d : List Nat) : List node → List node
  | [] => [⟨i, d⟩]
  | n :: rest =>
    if n.id = i then ⟨i, d⟩ :: rest
    else if i < n.id then ⟨i, d⟩ :: n :: rest
    else n :: setnodeT i d rest

/-- `delnode`'s table update: erase the row with id `i` when present. -/
def delnodeT (i : Nat) : List node → List node
  | [] => []
  | n :: rest => if n.id = i then rest else n :: delnodeT i rest

/-- The erase loop of `delnodes` from the iterator returned by
`find(startid)`: `while (nit != nds.end() && nit->id <= endid) nit = nds.erase(nit);`. -/
def eraseWhileLe (endid : Nat) : List node → List node
  | [] => []
  | n :: rest => if n.id ≤ endid then eraseWhileLe endid rest else n :: rest

/-- `delnodes`'s table update: `find(startid)` then the `<= endid` erase
loop.  When no row has id `startid`, `find` returns `end()` and nothing
is erased. -/
def delnodesT (startid endid : Nat) : List node → List node
  | [] => []
  | n :: rest =>
    if n.id = startid then eraseWhileLe endid (n :: rest)
    else n :: delnodesT startid endid rest

/-- The erase loop of `delnodec` from the iterator returned by
`find(startid)`: erase while each row's id equals `expected`, which is
incremented (as a uint64) after every erase. -/
def delnodecLoop (expected : Nat) : List node → List node
  | [] => []
  | n :: rest =>
    if n.id = expected then delnodecLoop ((expected + 1) % U64MOD) rest
    else n :: rest

/-- `delnodec`'s table update: `find(startid)` then the contiguous erase
loop starting at `expected = startid`. -/
def delnodecT (startid : Nat) : List node → List node
  | [] => []
  | n :: rest =>
    if n.id = startid then delnodecLoop startid (n :: rest)
    else n :: delnodecT startid rest

/-! ## Actions -/

/-- `auth_and_find_file`: look up the singleton `files` row of the scope
and check the stored owner.  (Its `require_auth(owner)` is modelled at
the step level, see `authOk`.) -/
def auth_and_find_file (owner : Name) (v : Vol) : Except Err Name :=
  match v.files with
  | none => .error .fileNotFound
  | some po => if po = owner then .ok po else .error .notFileOwner

/-- `create`: filename length check, file-must-be-new check, then the
name authorization logic against the name-bid table. -/
def create (bids : Registry) (isAcc : Name → Bool) (owner filename : Name)
    (s : State) : Except Err State :=
  if 1 ≤ filename.length ∧ filename.length ≤ 12 then
    match (s filename).files with
    | some _ => .error .fileExists
    | none =>
      if suffix filename ≠ filename ∨ filename.length < 12 then
        match bids (suffix filename) with
        | some current =>
          if current.high_bid < 0 then
            if current.high_bidder = owner then
              .ok (setVol s filename ⟨some owner, (s filename).nodes⟩)
            else .error .suffixBidNotOwned
          else .error .suffixAuctionOpen
        | none =>
          if owner = suffix filename ∨
              (suffix filename = filename ∧ isAcc (suffix filename) = false) then
            .ok (setVol s filename ⟨some owner, (s filename).nodes⟩)
          else .error .suffixAccountNotOwned
      else .ok (setVol s filename ⟨some owner, (s filename).nodes⟩)
  else .error .invalidFilename

/-- The shared shape of the seven owner-gated actions: run
`auth_and_find_file`, abort on its error, otherwise overwrite the
scoped tables with `v`. -/
def withAuth (owner filename : Name) (s : State) (v : Vol) : Except Err State :=
  match auth_and_find_file owner (s filename) with
  | .error e => .error e
  | .ok _ => .ok (setVol s filename v)

/-- `reset`: authorize, then `clear_nodes` (the `files` row is untouched). -/
def reset (owner filename : Name) (s : State) : Except Err State :=
  withAuth owner filename s ⟨(s filename).files, []⟩

/-- `del`: authorize, erase the `files` row, then `clear_nodes`. -/
def del (owner filename : Name) (s : State) : Except Err State :=
  withAuth owner filename s ⟨none, []⟩

/-- `setimmutable`: authorize, then overwrite the stored owner with the
empty name. -/
def setimmutable (owner filename : Name) (s : State) : Except Err State :=
  withAuth owner filename s ⟨some emptyName, (s filename).nodes⟩

/-- `setnode`: authorize, then upsert the node row. -/
def setnode (owner filename : Name) (nodeid : Nat) (nodedata : List Nat)
    (s : State) : Except Err State :=
  withAuth owner filename s ⟨(s filename).files, setnodeT nodeid nodedata (s filename).nodes⟩

/-- `delnode`: authorize, then erase the node row if present. -/
def delnode (owner filename : Name) (nodeid : Nat) (s : State) : Except Err State :=
  withAuth owner filename s ⟨(s filename).files, delnodeT nodeid (s filename).nodes⟩

/-- `delnodes`: authorize, then the inclusive-range erase loop. -/
def delnodes (owner filename : Name) (startid endid : Nat) (s : State) :
    Except Err State :=
  withAuth owner filename s ⟨(s filename).files, delnodesT startid endid (s filename).nodes⟩

/-- `delnodec`: authorize, then the contiguous erase loop.  The `count`
argument is declared exactly as in the source. -/
def delnodec (owner filename : Name) (startid count : Nat) (s : State) :
    Except Err State :=
  withAuth owner filename s ⟨(s filename).files, delnodecT startid (s filename).nodes⟩

/-! ## Action steps and reachability -/

/-- One invocation of a contract action with its arguments. -/
inductive Act where
  | create (owner filename : Name)
  | reset (owner filename : Name)
  | del (owner filename : Name)
  | setimmutable (owner filename : Name)
  | setnode (owner filename : Name) (nodeid : Nat) (nodedata : List Nat)
  | delnode (owner filename : Name) (nodeid : Nat)
  | delnodes (owner filename : Name) (startid endid : Nat)
  | delnodec (owner filename : Name) (startid count : Nat)

/-- The account whose authority the action demands (`require_auth`). -/
def Act.actor : Act → Name
  | .create o _ => o
  | .reset o _ => o
  | .del o _ => o
  | .setimmutable o _ => o
  | .setnode o _ _ _ => o
  | .delnode o _ _ => o
  | .delnodes o _ _ _ => o
  | .delnodec o _ _ _ => o

/-- The filename argument of the action. -/
def Act.fname : Act → Name
  | .create _ f => f
  | .reset _ f => f
  | .del _ f => f
  | .setimmutable _ f => f
  | .setnode _ f _ _ => f
  | .delnode _ f _ => f
  | .delnodes _ f _ _ => f
  | .delnodec _ f _ _ => f

/-- `require_auth` can succeed: the actor is a real authenticated
account, in particular never the empty name (no account can be created
with the empty name). -/
def authOk (a : Act) : Prop := a.actor ≠ emptyName

/-- Dispatch one action. -/
def runAct (bids : Registry) (isAcc : Name → Bool) : Act → State → Except Err State
  | .create o f, s => create bids isAcc o f s
  | .reset o f, s => reset o f s
  | .del o f, s => del o f s
  | .setimmutable o f, s => setimmutable o f s
  | .setnode o f i d, s => setnode o f i d s
  | .delnode o f i, s => delnode o f i s
  | .delnodes o f a b, s => delnodes o f a b s
  | .delnodec o f a c, s => delnodec o f a c s

/-- A run of successful, authenticated action steps. -/
inductive Steps (bids : Registry) (isAcc : Name → Bool) : State → List Act → State → Prop
  | nil (s : State) : Steps bids isAcc s [] s
  | cons {s s' s'' : State} {a : Act} {as : List Act} :
      authOk a → runAct bids isAcc a s = .ok s' →
      Steps bids isAcc s' as s'' → Steps bids isAcc s (a :: as) s''

/-- States reachable from empty storage by successful, authenticated steps. -/
inductive Reach (bids : Registry) (isAcc : Name → Bool) : State → Prop
  | init : Reach bids isAcc init
  | step {s s' : State} {a : Act} :
      Reach bids isAcc s → authOk a → runAct bids isAcc a s = .ok s' →
      Reach bids isAcc s'

/-! ## Concrete instances used by witnesses and counterexamples -/

/-- An empty bid table. -/
def bids0 : Registry := fun _ => none

/-- An account-existence view on which no account exists. -/
def isAcc0 : Name → Bool := fun _ => false

/-- An account-existence view on which every account exists. -/
def isAccAll : Name → Bool := fun _ => true

/-- Owner used by the C2 failing input. -/
def oC2 : Name := ['o']

/-- Filename used by the C2 failing input. -/
def fnC2 : Name := ['f']

/-- C2 failing input: a file owned by `oC2` holding nodes {5, 6}. -/
def sC2 : State := setVol init fnC2 ⟨some oC2, [⟨5, []⟩, ⟨6, []⟩]⟩

/-- A full-length, dot-free filename: `"abcdefghijkl"`. -/
def fn5 : Name := ['a', 'b', 'c', 'd', 'e', 'f', 'g', 'h', 'i', 'j', 'k', 'l']

/-- A bid table holding a closed bid on `fn5` won by `'w'` — irrelevant
to claims of full-length names. -/
def bids5 : Registry := fun n => if n = fn5 then some ⟨fn5, ['w'], -1, 0⟩ else none

/-- Account-existence view for the C5 witness. -/
def isAcc5 : Name → Bool := fun _ => true

/-- Auction winner in the C1 and C4 scenarios. -/
def wName : Name := ['w']

/-- The parent (suffix) account in the C1 scenario. -/
def pName : Name := ['p']

/-- The dotted filename `"s.p"` of the C1 scenario. -/
def spName : Name := ['s', '.', 'p']

/-- A bid table holding a closed bid on `pName` won by `wName`. -/
def bidsC1 : Registry := fun n => if n = pName then some ⟨pName, wName, -1, 0⟩ else none

/-- The short top-level filename `"q"` of the C4 witness. -/
def fn4 : Name := ['q']

/-- A closed bid on `fn4` won by `wName`. -/
def bid4 : name_bid := ⟨fn4, wName, -1, 0⟩

/-- A bid table holding `bid4`. -/
def bids4 : Registry := fun n => if n = fn4 then some bid4 else none

/-- Owner used by the C3 scenarios. -/
def oC3 : Name := ['o']

/-- Filename used by the C3 scenarios. -/
def fnC3 : Name := ['g']

/-- C3 counterexample input: a file holding only node 7. -/
def sC3 : State := setVol init fnC3 ⟨some oC3, [⟨7, []⟩]⟩

/-- Result of `delnodes(5, 10)` on `sC3`: node 7 is still there. -/
def sC3res : State := setVol sC3 fnC3 ⟨some oC3, [⟨7, []⟩]⟩

/-- C3 witness input: a file holding nodes {5, 7, 10, 12} (the spec's
own example). -/
def sC3w : State := setVol init fnC3 ⟨some oC3, [⟨5, []⟩, ⟨7, []⟩, ⟨10, []⟩, ⟨12, []⟩]⟩

/-- Filename of the C6 witness. -/
def fn6 : Name := ['m']

/-- C6 witness input: a frozen file (owner is the empty sentinel). -/
def s6 : State := setVol init fn6 ⟨some emptyName, []⟩

/-- State after claiming `fn5` by `'z'` from empty storage. -/
def s7a : State := setVol init fn5 ⟨some ['z'], []⟩

/-- State after additionally storing node 3 in `fn5`. -/
def s7b : State := setVol s7a fn5 ⟨some ['z'], [⟨3, [1]⟩]⟩

/-- Owner of the C9 witness file. -/
def o9 : Name := ['o']

/-- Filename of the C9 witness. -/
def fn9 : Name := ['h']

/-- C9 witness input: a file owned by `o9` holding node 1. -/
def s9 : State := setVol init fn9 ⟨some o9, [⟨1, [2]⟩]⟩

/-- Result of `reset` on `s9`: same owner, no nodes. -/
def s9r : State := setVol s9 fn9 ⟨some o9, []⟩

/-- State after claiming `fn5` by `'z'` from empty storage (C8 witness). -/
def s8 : State := setVol init fn5 ⟨some ['z'], []⟩

/-! ## Identifier lemmas -/

/-- The suffix of a name never contains a dot. -/
theorem dot_not_mem_suffix (n : Name) : '.' ∉ suffix n := by
  induction n with
  | nil => simp [suffix]
  | cons c rest ih =>
    by_cases h : '.' ∈ c :: rest
    · simpa [suffix, h] using ih
    · simp [suffix, h]

/-- A dot-free name is its own suffix. -/
theorem suffix_no_dot {n : Name} (h : '.' ∉ n) : suffix n = n := by
  cases n with
  | nil => rfl
  | cons c rest => simp [suffix, h]

/-- A dotted name differs from its suffix. -/
theorem suffix_ne_of_dot {n : Name} (h : '.' ∈ n) : suffix n ≠ n := by
  intro he
  apply dot_not_mem_suffix n
  rw [he]
  exact h

/-! ## Action unfolding lemmas -/

/-- An owner-gated action succeeds exactly when the stored owner matches
the caller, and then performs its single table write. -/
theorem withAuth_ok_iff {owner fn : Name} {s : State} {v : Vol} {s' : State} :
    withAuth owner fn s v = .ok s' ↔ (s fn).files = some owner ∧ s' = setVol s fn v := by
  unfold withAuth auth_and_find_file
  cases h : (s fn).files with
  | none => simp
  | some q =>
    by_cases hq : q = owner
    · subst hq
      simp [eq_comm]
    · simp [hq]

/-- An owner-gated action succeeds for the matching owner. -/
theorem withAuth_ok {owner fn : Name} {s : State} {v : Vol}
    (h : (s fn).files = some owner) :
    withAuth owner fn s v = .ok (setVol s fn v) :=
  withAuth_ok_iff.mpr ⟨h, rfl⟩

/-- Once the stored owner is the empty sentinel, every owner-gated
action fails the owner check for every real (non-empty) caller. -/
theorem withAuth_frozen {caller fn : Name} {s : State} {v : Vol}
    (hf : (s fn).files = some emptyName) (hc : caller ≠ emptyName) :
    withAuth caller fn s v = .error .notFileOwner := by
  have hne : emptyName ≠ caller := fun he => hc he.symm
  simp [withAuth, auth_and_find_file, hf, hne]

/-- What a successful `create` guarantees: the filename was valid, the
file was new, and the resulting state adds exactly the new `files` row. -/
theorem create_ok_state {bids : Registry} {isAcc : Name → Bool}
    {owner fn : Name} {s s' : State}
    (h : create bids isAcc owner fn s = .ok s') :
    (s fn).files = none ∧ (1 ≤ fn.length ∧ fn.length ≤ 12) ∧
    s' = setVol s fn ⟨some owner, (s fn).nodes⟩ := by
  unfold create at h
  split at h
  · split at h
    · simp at h
    · rename_i hval x hf
      refine ⟨hf, hval, ?_⟩
      split at h
      · split at h
        · split at h
          · split at h
            · exact (Except.ok.inj h).symm
            · simp at h
          · simp at h
        · split at h
          · exact (Except.ok.inj h).symm
          · simp at h
      · exact (Except.ok.inj h).symm
  · simp at h

/-! ## `create` unfolding lemmas -/

/-- When the name is dotted or short and the suffix has a bid-table
entry, `create` is decided by the closed-auction and high-bidder checks. -/
theorem create_bid_case {bids : Registry} {isAcc : Name → Bool}
    {claimant fn : Name} {s : State} {b : name_bid}
    (hval : 1 ≤ fn.length ∧ fn.length ≤ 12)
    (hnew : (s fn).files = none)
    (hbranch : suffix fn ≠ fn ∨ fn.length < 12)
    (hbid : bids (suffix fn) = some b) :
    create bids isAcc claimant fn s =
      if b.high_bid < 0 then
        if b.high_bidder = claimant then
          .ok (setVol s fn ⟨some claimant, (s fn).nodes⟩)
        else .error .suffixBidNotOwned
      else .error .suffixAuctionOpen := by
  unfold create
  rw [if_pos hval, hnew, if_pos hbranch, hbid]

/-- When the name is dotted or short and the suffix has no bid-table
entry, `create` is decided by the suffix-ownership check. -/
theorem create_nobid_case {bids : Registry} {isAcc : Name → Bool}
    {claimant fn : Name} {s : State}
    (hval : 1 ≤ fn.length ∧ fn.length ≤ 12)
    (hnew : (s fn).files = none)
    (hbranch : suffix fn ≠ fn ∨ fn.length < 12)
    (hbid : bids (suffix fn) = none) :
    create bids isAcc claimant fn s =
      if claimant = suffix fn ∨ (suffix fn = fn ∧ isAcc (suffix fn) = false) then
        .ok (setVol s fn ⟨some claimant, (s fn).nodes⟩)
      else .error .suffixAccountNotOwned := by
  unfold create
  rw [if_pos hval, hnew, if_pos hbranch, hbid]

/-! ## Claims -/

/-- C10: `delnodec` produces the same state for any two values of its
`count` argument — the source never reads `count`, so the nodes removed
(the maximal contiguous run starting at `startid`) do not depend on it. -/
theorem claim_C10 (owner fn : Name) (startid c1 c2 : Nat) (s : State) :
    delnodec owner fn startid c1 s = delnodec owner fn startid c2 s := rfl

/-- C2 is a code bug: `delnodec` ignores `count`.  On a file holding
nodes {5, 6}, `delnodec(start = 5, count = 1)` removes both nodes, so
the deletion is not bounded by `count` as the spec (and the source's own
comment, which says the range is given by the first id and a node count)
requires. -/
theorem claim_C2_bug :
    (sC2 fnC2).nodes.length = 2 ∧
    delnodec oC2 fnC2 5 1 sC2 = .ok (setVol sC2 fnC2 ⟨some oC2, []⟩) :=
  ⟨rfl, rfl⟩

/-- C5: a full-length (12-character), dot-free filename is claimable by
any claimant when no file exists for it yet, for every bid table and
every account-existence predicate — neither is consulted. -/
theorem claim_C5 (bids : Registry) (isAcc : Name → Bool)
    (claimant fn : Name) (s : State)
    (hlen : fn.length = 12) (hdot : '.' ∉ fn)
    (hnew : (s fn).files = none) :
    create bids isAcc claimant fn s =
      .ok (setVol s fn ⟨some claimant, (s fn).nodes⟩) := by
  have hs : suffix fn = fn := suffix_no_dot hdot
  have hb : ¬ (suffix fn ≠ fn ∨ fn.length < 12) := by simp [hs, hlen]
  unfold create
  rw [if_pos (by omega : 1 ≤ fn.length ∧ fn.length ≤ 12), hnew, if_neg hb]

/-- C4: for a short, dot-free (top-level) filename with a bid-table
entry, a claim succeeds exactly when the auction is closed (negative
bid) and the claimant is the recorded high bidder; while the bid is
non-negative every claimant is rejected with the auction-open error. -/
theorem claim_C4 (bids : Registry) (isAcc : Name → Bool)
    (claimant fn : Name) (s : State) (b : name_bid)
    (hpos : 1 ≤ fn.length) (hshort : fn.length < 12) (hdot : '.' ∉ fn)
    (hnew : (s fn).files = none) (hbid : bids fn = some b) :
    ((∃ s', create bids isAcc claimant fn s = .ok s') ↔
      (b.high_bid < 0 ∧ b.high_bidder = claimant)) ∧
    (0 ≤ b.high_bid → create bids isAcc claimant fn s = .error .suffixAuctionOpen) := by
  have hs : suffix fn = fn := suffix_no_dot hdot
  have hbid' : bids (suffix fn) = some b := by rw [hs]; exact hbid
  rw [create_bid_case ⟨hpos, le_of_lt hshort⟩ hnew (Or.inr hshort) hbid']
  constructor
  · constructor
    · rintro ⟨s', h⟩
      by_cases h1 : b.high_bid < 0
      · by_cases h2 : b.high_bidder = claimant
        · exact ⟨h1, h2⟩
        · simp [h1, h2] at h
      · simp [h1] at h
    · rintro ⟨h1, h2⟩
      exact ⟨setVol s fn ⟨some claimant, (s fn).nodes⟩, by simp [h1, h2]⟩
  · intro h0
    have h1 : ¬ b.high_bid < 0 := not_lt.mpr h0
    simp [h1]

/-- Witness for C4 at the short name `"q"` with a closed bid won by
`"w"`: the characterization holds there, and in particular claimant
`"w"` succeeds. -/
theorem claim_C4_witness :
    (1 ≤ fn4.length ∧ fn4.length < 12 ∧ '.' ∉ fn4 ∧
      (init fn4).files = none ∧ bids4 fn4 = some bid4) ∧
    (((∃ s', create bids4 isAccAll wName fn4 init = .ok s') ↔
       (bid4.high_bid < 0 ∧ bid4.high_bidder = wName)) ∧
     (0 ≤ bid4.high_bid →
       create bids4 isAccAll wName fn4 init = .error .suffixAuctionOpen)) :=
  ⟨⟨by decide, by decide, by decide, rfl, by decide⟩,
    claim_C4 bids4 isAccAll wName fn4 init bid4
      (by decide) (by decide) (by decide) rfl (by decide)⟩

/-- C1 as the code has it (amended): for a dotted (non-top-level)
filename the bid table is consulted at the suffix; with an entry, the
claim succeeds exactly when the auction is closed and the claimant is
the high bidder, and only with no entry does it succeed exactly for the
suffix account itself. -/
theorem claim_C1 (bids : Registry) (isAcc : Name → Bool)
    (claimant fn : Name) (s : State)
    (hdot : '.' ∈ fn) (hval : 1 ≤ fn.length ∧ fn.length ≤ 12)
    (hnew : (s fn).files = none) :
    (∃ s', create bids isAcc claimant fn s = .ok s') ↔
      (match bids (suffix fn) with
       | some b => b.high_bid < 0 ∧ b.high_bidder = claimant
       | none => claimant = suffix fn) := by
  have hsne : suffix fn ≠ fn := suffix_ne_of_dot hdot
  cases hbid : bids (suffix fn) with
  | some b =>
    rw [create_bid_case hval hnew (Or.inl hsne) hbid]
    constructor
    · rintro ⟨s', h⟩
      by_cases h1 : b.high_bid < 0
      · by_cases h2 : b.high_bidder = claimant
        · exact ⟨h1, h2⟩
        · simp [h1, h2] at h
      · simp [h1] at h
    · rintro ⟨h1, h2⟩
      exact ⟨setVol s fn ⟨some claimant, (s fn).nodes⟩, by simp [h1, h2]⟩
  | none =>
    rw [create_nobid_case hval hnew (Or.inl hsne) hbid]
    constructor
    · rintro ⟨s', h⟩
      by_cases hc : claimant = suffix fn
      · exact hc
      · simp [hc, hsne] at h
    · intro hc
      have hc' : claimant = suffix fn := hc
      exact ⟨setVol s fn ⟨some claimant, (s fn).nodes⟩, by simp [hc']⟩

/-- Counterexample to C1 as stated: on the dotted name `"s.p"` with a
closed bid on the suffix `"p"` won by `"w"`, claimant `"w"` (not the
suffix) succeeds and the suffix account `"p"` itself is rejected — the
registry is consulted and decides the outcome. -/
theorem claim_C1_cex :
    create bidsC1 isAccAll wName spName init =
      .ok (setVol init spName ⟨some wName, []⟩) ∧
    wName ≠ suffix spName ∧
    create bidsC1 isAccAll pName spName init = .error .suffixBidNotOwned ∧
    pName = suffix spName :=
  ⟨rfl, by decide, rfl, by decide⟩

/-- Witness for the amended C1 at the dotted name `"s.p"` with the
closed bid on `"p"` won by `"w"`. -/
theorem claim_C1_witness :
    ('.' ∈ spName ∧ (1 ≤ spName.length ∧ spName.length ≤ 12) ∧
      (init spName).files = none) ∧
    ((∃ s', create bidsC1 isAccAll wName spName init = .ok s') ↔
      (match bidsC1 (suffix spName) with
       | some b => b.high_bid < 0 ∧ b.high_bidder = wName
       | none => wName = suffix spName)) :=
  ⟨⟨by decide, by decide, rfl⟩,
    claim_C1 bidsC1 isAccAll wName spName init (by decide) (by decide) rfl⟩

/-- Witness for C5 at the identifier `"abcdefghijkl"` and a registry
that even holds a closed bid for it: the claim still succeeds. -/
theorem claim_C5_witness :
    (fn5.length = 12 ∧ '.' ∉ fn5 ∧ (init fn5).files = none) ∧
    create bids5 isAcc5 ['z'] fn5 init =
      .ok (setVol init fn5 ⟨some ['z'], (init fn5).nodes⟩) :=
  ⟨⟨by decide, by decide, rfl⟩,
    claim_C5 bids5 isAcc5 ['z'] fn5 init (by decide) (by decide) rfl⟩

/-! ## `delnodes` table lemmas -/

/-- When no row has id `startid`, `find` fails and `delnodes` erases
nothing. -/
theorem delnodesT_not_mem {startid endid : Nat} {l : List node}
    (h : startid ∉ l.map node.id) : delnodesT startid endid l = l := by
  induction l with
  | nil => rfl
  | cons n rest ih =>
    simp only [List.map_cons, List.mem_cons, not_or] at h
    unfold delnodesT
    rw [if_neg (fun he => h.1 he.symm), ih h.2]

/-- On a sorted tail whose ids all sit at or above `startid`, the erase
loop removes exactly the rows with id at most `endid`. -/
theorem eraseWhileLe_spec {startid endid : Nat} {l : List node}
    (hs : l.Pairwise (fun a b => a.id < b.id))
    (hall : ∀ n ∈ l, startid ≤ n.id) :
    eraseWhileLe endid l =
      l.filter (fun n => !(decide (startid ≤ n.id ∧ n.id ≤ endid))) := by
  induction l with
  | nil => rfl
  | cons n rest ih =>
    rw [List.pairwise_cons] at hs
    by_cases hle : n.id ≤ endid
    · have hn : startid ≤ n.id := hall n (List.mem_cons_self n rest)
      unfold eraseWhileLe
      rw [if_pos hle, ih hs.2 (fun m hm => hall m (List.mem_cons_of_mem n hm))]
      simp [List.filter_cons, hn, hle]
    · unfold eraseWhileLe
      rw [if_neg hle]
      have hfix : ∀ m ∈ n :: rest,
          (fun x => !(decide (startid ≤ x.id ∧ x.id ≤ endid))) m = true := by
        intro m hm
        have hgt : endid < m.id := by
          rcases List.mem_cons.mp hm with h | h
          · subst h; omega
          · exact lt_trans (by omega) (hs.1 m h)
        simp only [Bool.not_eq_true', decide_eq_false_iff_not]
        omega
      rw [List.filter_eq_self.mpr hfix]

/-- When a row has id `startid`, `delnodes` removes exactly the rows in
the inclusive range, skipping interior gaps (table assumed sorted). -/
theorem delnodesT_mem {startid endid : Nat} {l : List node}
    (hs : l.Pairwise (fun a b => a.id < b.id))
    (hmem : startid ∈ l.map node.id) :
    delnodesT startid endid l =
      l.filter (fun n => !(decide (startid ≤ n.id ∧ n.id ≤ endid))) := by
  induction l with
  | nil => simp at hmem
  | cons n rest ih =>
    have hs' := List.pairwise_cons.mp hs
    by_cases he : n.id = startid
    · unfold delnodesT
      rw [if_pos he]
      apply eraseWhileLe_spec hs
      intro m hm
      rcases List.mem_cons.mp hm with h | h
      · subst h; omega
      · have := hs'.1 m h; omega
    · have hmem' : startid ∈ rest.map node.id := by
        have h2 := hmem
        rw [List.map_cons] at h2
        rcases List.mem_cons.mp h2 with h | h
        · exact absurd h.symm he
        · exact h
      have hlt : n.id < startid := by
        rcases List.mem_map.mp hmem' with ⟨m, hm, hid⟩
        have := hs'.1 m hm
        omega
      unfold delnodesT
      rw [if_neg he, ih hs'.2 hmem']
      have hkeep : (fun x => !(decide (startid ≤ x.id ∧ x.id ≤ endid))) n = true := by
        simp only [Bool.not_eq_true', decide_eq_false_iff_not]
        omega
      rw [List.filter_cons, if_pos hkeep]

/-! ## Claims C3, C6, C7, C8, C9 -/

/-- Counterexample to C3 as stated: `delete_range(5, 10)` on a file
holding only node 7 removes nothing — `find(5)` returns `end()` when the
start id itself is absent — although 7 lies inside `[5, 10]`. -/
theorem claim_C3_cex :
    delnodes oC3 fnC3 5 10 sC3 = .ok sC3res ∧
    (sC3res fnC3).nodes = [⟨7, []⟩] ∧ (5 ≤ 7 ∧ 7 ≤ 10) :=
  ⟨rfl, rfl, by omega⟩

/-- C3 as the code has it (amended): on a sorted table, `delete_range`
removes exactly the rows with id in `[start, end]` (interior gaps
skipped) provided a row with id `start` exists; when id `start` is
absent, it removes nothing. -/
theorem claim_C3 (owner fn : Name) (startid endid : Nat) (s : State)
    (hown : (s fn).files = some owner)
    (hsorted : ((s fn).nodes).Pairwise (fun a b => a.id < b.id)) :
    delnodes owner fn startid endid s =
      .ok (setVol s fn ⟨(s fn).files,
        if startid ∈ ((s fn).nodes).map node.id
        then ((s fn).nodes).filter
          (fun n => !(decide (startid ≤ n.id ∧ n.id ≤ endid)))
        else (s fn).nodes⟩) := by
  unfold delnodes
  rw [withAuth_ok hown]
  by_cases hmem : startid ∈ ((s fn).nodes).map node.id
  · rw [if_pos hmem, delnodesT_mem hsorted hmem]
  · rw [if_neg hmem, delnodesT_not_mem hmem]

/-- Witness for the amended C3 on the spec's own example {5, 7, 10, 12}
with `delete_range(5, 10)`: exactly {5, 7, 10} are removed and 12
remains. -/
theorem claim_C3_witness :
    ((sC3w fnC3).files = some oC3 ∧
      ((sC3w fnC3).nodes).Pairwise (fun a b => a.id < b.id) ∧
      ((sC3w fnC3).nodes).filter
        (fun n => !(decide (5 ≤ n.id ∧ n.id ≤ 10))) = [⟨12, []⟩]) ∧
    delnodes oC3 fnC3 5 10 sC3w =
      .ok (setVol sC3w fnC3 ⟨(sC3w fnC3).files,
        if (5 : Nat) ∈ ((sC3w fnC3).nodes).map node.id
        then ((sC3w fnC3).nodes).filter
          (fun n => !(decide (5 ≤ n.id ∧ n.id ≤ 10)))
        else (sC3w fnC3).nodes⟩) :=
  ⟨⟨rfl, by decide, by decide⟩, claim_C3 oC3 fnC3 5 10 sC3w rfl (by decide)⟩

/-- C9: a successful `reset` keeps the `files` row (owner included)
unchanged, empties the node table, touches no other namespace, and a
subsequent `setnode` by the same owner succeeds. -/
theorem claim_C9 (owner fn : Name) (s s' : State) (i : Nat) (d : List Nat)
    (h : reset owner fn s = .ok s') :
    (s' fn).files = (s fn).files ∧ (s' fn).nodes = [] ∧
    (∀ x, x ≠ fn → s' x = s x) ∧
    ∃ s2, setnode owner fn i d s' = .ok s2 := by
  obtain ⟨ho, hs'⟩ := withAuth_ok_iff.mp h
  subst hs'
  refine ⟨by simp [setVol], by simp [setVol], ?_, ?_⟩
  · intro x hx
    simp [setVol, hx]
  · have h2 : ((setVol s fn ⟨(s fn).files, []⟩) fn).files = some owner := by
      simp [setVol]
      exact ho
    unfold setnode
    exact ⟨_, withAuth_ok h2⟩

/-- Witness for C9: resetting a file holding node 1 keeps the owner,
clears the nodes, and `setnode` by the owner succeeds afterwards. -/
theorem claim_C9_witness :
    reset o9 fn9 s9 = .ok s9r ∧
    ((s9r fn9).files = (s9 fn9).files ∧ (s9r fn9).nodes = [] ∧
      (∀ x, x ≠ fn9 → s9r x = s9 x) ∧
      ∃ s2, setnode o9 fn9 5 [7] s9r = .ok s2) :=
  ⟨rfl, claim_C9 o9 fn9 s9 s9r 5 [7] rfl⟩

/-! ## Step lemmas for the temporal claims -/

/-- A successful owner-gated step by a real (non-empty) caller cannot
happen on a frozen file, so it leaves a frozen `files` row frozen. -/
theorem frozen_step_aux {o f fn : Name} {s s' : State} {v : Vol}
    (hf : (s fn).files = some emptyName) (ho : o ≠ emptyName)
    (hok : withAuth o f s v = .ok s') :
    (s' fn).files = some emptyName := by
  obtain ⟨hfo, hs'⟩ := withAuth_ok_iff.mp hok
  subst hs'
  by_cases hfn : fn = f
  · subst hfn
    rw [hf] at hfo
    exact absurd (Option.some.inj hfo).symm ho
  · simp only [setVol]
    rw [if_neg hfn]
    exact hf

/-- A successful owner-gated step whose written row keeps `files`
populated preserves `isSome` of every scope's `files` row. -/
theorem withAuth_file_isSome {o f fn : Name} {s s' : State} {v : Vol}
    (hok : withAuth o f s v = .ok s') (hv : v.files.isSome)
    (hsome : ((s fn).files).isSome) : ((s' fn).files).isSome := by
  obtain ⟨ho, hs'⟩ := withAuth_ok_iff.mp hok
  subst hs'
  by_cases hfn : fn = f
  · subst hfn
    simpa [setVol] using hv
  · simpa [setVol, hfn] using hsome

/-- An owner-gated step whose written row either keeps `files` populated
or clears the node table preserves the nodes-need-a-file invariant. -/
theorem withAuth_inv_aux {o f : Name} {s s' : State} {v : Vol}
    (hok : withAuth o f s v = .ok s')
    (hv : v.files.isSome ∨ v.nodes = [])
    (ih : ∀ ns, (s ns).nodes ≠ [] → (s ns).files ≠ none) :
    ∀ ns, (s' ns).nodes ≠ [] → (s' ns).files ≠ none := by
  obtain ⟨ho, hs'⟩ := withAuth_ok_iff.mp hok
  subst hs'
  intro ns hne
  by_cases hfn : ns = f
  · subst hfn
    have hv' : setVol s ns v ns = v := by simp [setVol]
    rw [hv'] at hne ⊢
    rcases hv with h | h
    · rcases Option.isSome_iff_exists.mp h with ⟨x, hx⟩
      rw [hx]
      simp
    · exact absurd h hne
  · simp only [setVol] at hne ⊢
    rw [if_neg hfn] at hne ⊢
    exact ih ns hne

/-! ## Claims C6, C7, C8 -/

/-- C6: once a file's stored owner is the empty sentinel, every mutating
action on that file fails the owner check for every real caller
(including the original owner), and no authenticated successful step of
any action ever changes that `files` row away from the sentinel. -/
theorem claim_C6 (bids : Registry) (isAcc : Name → Bool) (s : State) (fn : Name)
    (hf : (s fn).files = some emptyName) :
    (∀ caller, caller ≠ emptyName →
      reset caller fn s = .error .notFileOwner ∧
      del caller fn s = .error .notFileOwner ∧
      setimmutable caller fn s = .error .notFileOwner ∧
      (∀ i d, setnode caller fn i d s = .error .notFileOwner) ∧
      (∀ i, delnode caller fn i s = .error .notFileOwner) ∧
      (∀ i j, delnodes caller fn i j s = .error .notFileOwner) ∧
      (∀ i c, delnodec caller fn i c s = .error .notFileOwner)) ∧
    (∀ a s', authOk a → runAct bids isAcc a s = .ok s' →
      (s' fn).files = some emptyName) := by
  constructor
  · intro caller hc
    exact ⟨withAuth_frozen hf hc, withAuth_frozen hf hc, withAuth_frozen hf hc,
      fun i d => withAuth_frozen hf hc, fun i => withAuth_frozen hf hc,
      fun i j => withAuth_frozen hf hc, fun i c => withAuth_frozen hf hc⟩
  · intro a s' hauth hok
    cases a with
    | create o f =>
      simp only [runAct] at hok
      obtain ⟨hnone, _, hs'⟩ := create_ok_state hok
      by_cases hfn : fn = f
      · subst hfn
        rw [hf] at hnone
        exact Option.noConfusion hnone
      · subst hs'
        simp only [setVol]
        rw [if_neg hfn]
        exact hf
    | reset o f => exact frozen_step_aux hf hauth hok
    | del o f => exact frozen_step_aux hf hauth hok
    | setimmutable o f => exact frozen_step_aux hf hauth hok
    | setnode o f i d => exact frozen_step_aux hf hauth hok
    | delnode o f i => exact frozen_step_aux hf hauth hok
    | delnodes o f i j => exact frozen_step_aux hf hauth hok
    | delnodec o f i c => exact frozen_step_aux hf hauth hok

/-- Witness for C6 on a frozen file: a real caller's mutating actions
all fail with the not-owner error. -/
theorem claim_C6_witness :
    (s6 fn6).files = some emptyName ∧
    reset ['o'] fn6 s6 = .error .notFileOwner ∧
    del ['o'] fn6 s6 = .error .notFileOwner ∧
    setimmutable ['o'] fn6 s6 = .error .notFileOwner ∧
    setnode ['o'] fn6 1 [2] s6 = .error .notFileOwner := by
  have h := (claim_C6 bids0 isAcc0 s6 fn6 rfl).1 ['o'] (by decide)
  exact ⟨rfl, h.1, h.2.1, h.2.2.1, h.2.2.2.1 1 [2]⟩

/-- C7: in every reachable state, a namespace with at least one node row
has a `files` row — nodes exist only inside existing files. -/
theorem claim_C7 (bids : Registry) (isAcc : Name → Bool) (s : State)
    (h : Reach bids isAcc s) :
    ∀ ns, (s ns).nodes ≠ [] → (s ns).files ≠ none := by
  induction h with
  | init =>
    intro ns hne
    simp [init] at hne
  | step hr hauth hok ih =>
    rename_i s0 s1 a
    cases a with
    | create o f =>
      simp only [runAct] at hok
      obtain ⟨hnone, _, hs'⟩ := create_ok_state hok
      subst hs'
      intro ns hne
      by_cases hfn : ns = f
      · subst hfn
        simp [setVol]
      · simp only [setVol] at hne ⊢
        rw [if_neg hfn] at hne ⊢
        exact ih ns hne
    | reset o f =>
      exact withAuth_inv_aux hok (Or.inr rfl) ih
    | del o f =>
      exact withAuth_inv_aux hok (Or.inr rfl) ih
    | setimmutable o f =>
      exact withAuth_inv_aux hok (Or.inl rfl) ih
    | setnode o f i d =>
      have ho := (withAuth_ok_iff.mp hok).1
      exact withAuth_inv_aux hok (Or.inl (by simp [ho])) ih
    | delnode o f i =>
      have ho := (withAuth_ok_iff.mp hok).1
      exact withAuth_inv_aux hok (Or.inl (by simp [ho])) ih
    | delnodes o f i j =>
      have ho := (withAuth_ok_iff.mp hok).1
      exact withAuth_inv_aux hok (Or.inl (by simp [ho])) ih
    | delnodec o f i c =>
      have ho := (withAuth_ok_iff.mp hok).1
      exact withAuth_inv_aux hok (Or.inl (by simp [ho])) ih

/-- Witness for C7 at the reachable state obtained by claiming
`"abcdefghijkl"` and storing node 3 in it. -/
theorem claim_C7_witness :
    (s7b fn5).nodes ≠ [] ∧ (s7b fn5).files ≠ none := by
  have r1 : Reach bids0 isAcc0 s7a :=
    Reach.step (a := Act.create ['z'] fn5) Reach.init
      (show (['z'] : Name) ≠ emptyName by decide) rfl
  have r2 : Reach bids0 isAcc0 s7b :=
    Reach.step (a := Act.setnode ['z'] fn5 3 [1]) r1
      (show (['z'] : Name) ≠ emptyName by decide) rfl
  exact ⟨by decide, claim_C7 bids0 isAcc0 s7b r2 fn5 (by decide)⟩

/-- One successful authenticated step that is not a `del` of `fn` keeps
`fn`'s `files` row populated. -/
theorem step_file_isSome {bids : Registry} {isAcc : Name → Bool}
    {a : Act} {s s' : State} {fn : Name}
    (hok : runAct bids isAcc a s = .ok s')
    (hnd : ∀ o, a ≠ .del o fn)
    (hsome : ((s fn).files).isSome) : ((s' fn).files).isSome := by
  cases a with
  | create o f =>
    simp only [runAct] at hok
    obtain ⟨_, _, hs'⟩ := create_ok_state hok
    subst hs'
    by_cases hfn : fn = f
    · subst hfn
      simp [setVol]
    · simpa [setVol, hfn] using hsome
  | reset o f =>
    have ho := (withAuth_ok_iff.mp hok).1
    exact withAuth_file_isSome hok (by simp [ho]) hsome
  | del o f =>
    by_cases hfn : f = fn
    · subst hfn
      exact absurd rfl (hnd o)
    · obtain ⟨_, hs'⟩ := withAuth_ok_iff.mp hok
      subst hs'
      have hfn' : ¬ fn = f := fun h => hfn h.symm
      simpa [setVol, hfn'] using hsome
  | setimmutable o f =>
    exact withAuth_file_isSome hok (by simp) hsome
  | setnode o f i d =>
    have ho := (withAuth_ok_iff.mp hok).1
    exact withAuth_file_isSome hok (by simp [ho]) hsome
  | delnode o f i =>
    have ho := (withAuth_ok_iff.mp hok).1
    exact withAuth_file_isSome hok (by simp [ho]) hsome
  | delnodes o f i j =>
    have ho := (withAuth_ok_iff.mp hok).1
    exact withAuth_file_isSome hok (by simp [ho]) hsome
  | delnodec o f i c =>
    have ho := (withAuth_ok_iff.mp hok).1
    exact withAuth_file_isSome hok (by simp [ho]) hsome

/-- A run of successful authenticated steps containing no `del` of `fn`
keeps `fn`'s `files` row populated. -/
theorem steps_file_isSome {bids : Registry} {isAcc : Name → Bool} {fn : Name}
    {s0 : State} {acts : List Act} {s1 : State}
    (h : Steps bids isAcc s0 acts s1) :
    (∀ o, Act.del o fn ∉ acts) → ((s0 fn).files).isSome →
    ((s1 fn).files).isSome := by
  induction h with
  | nil s =>
    intro _ hs
    exact hs
  | cons hauth hok hrest ih =>
    rename_i s s' s'' a as
    intro hnd hsome
    refine ih (fun o hm => hnd o (List.mem_cons_of_mem a hm)) ?_
    exact step_file_isSome hok
      (fun o he => hnd o (he ▸ List.mem_cons_self a as)) hsome

/-- C8: after a successful claim of `fn`, any later claim of `fn` fails
with the file-exists error, for any claimant, as long as the run of
intervening successful authenticated steps contains no `del` of `fn`. -/
theorem claim_C8 (bids : Registry) (isAcc : Name → Bool) (claimant fn : Name)
    (s s0 s1 : State) (acts : List Act)
    (h0 : create bids isAcc claimant fn s = .ok s0)
    (hsteps : Steps bids isAcc s0 acts s1)
    (hnodel : ∀ o, Act.del o fn ∉ acts) :
    ∀ claimant2, create bids isAcc claimant2 fn s1 = .error .fileExists := by
  obtain ⟨hnone, hval, hs0⟩ := create_ok_state h0
  subst hs0
  have hsome0 : (((setVol s fn ⟨some claimant, (s fn).nodes⟩) fn).files).isSome := by
    simp [setVol]
  have hsome1 := steps_file_isSome hsteps hnodel hsome0
  intro claimant2
  obtain ⟨q, hq⟩ := Option.isSome_iff_exists.mp hsome1
  unfold create
  rw [if_pos hval, hq]

/-- Witness for C8: claiming `"abcdefghijkl"`, then (after an empty run)
claiming it again fails with the file-exists error. -/
theorem claim_C8_witness :
    create bids0 isAcc0 ['z'] fn5 init = .ok s8 ∧
    Steps bids0 isAcc0 s8 [] s8 ∧
    create bids0 isAcc0 ['y'] fn5 s8 = .error .fileExists := by
  have h1 : create bids0 isAcc0 ['z'] fn5 init = .ok s8 := rfl
  exact ⟨h1, Steps.nil s8,
    claim_C8 bids0 isAcc0 ['z'] fn5 init s8 s8 [] h1 (Steps.nil s8)
      (fun o hm => by cases hm) ['y']⟩

end Ramdisk
